import Mathlib

/-!
Verification development for kitty's threshold-logic identification
(`include/kitty/threshold_identification.hpp`).

The truth table is embedded as an arity `n` together with a bit function;
position `x < 2^n` holds the function value on the input assignment whose
i-th variable is bit i of `x`.  The external collaborators (the ISOP cube
extractor and the ILP solver) are parameters of `is_threshold`, constrained
by the predicates `IsopOk` and `SolverOk`.  Machine-integer effects of the
source (the `uint64_t` scan limit, word-wise iteration over the bit
storage) are modelled explicitly.
-/

namespace ThresholdId

/-- A completely specified Boolean function of `n` variables: bit `x` (for
`x < 2^n`) is the value on the assignment encoded by the bits of `x`. -/
structure TT where
  n : Nat
  f : Nat → Bool

/-- Reading a bit of the stored table: positions outside `2^n` read as 0,
matching kitty's masked storage blocks. -/
def TT.bitAt (tt : TT) (x : Nat) : Bool :=
  if x < 2^tt.n then tt.f x else false

/-- kitty `cofactor1 tt i`: bit `x` is the value of `tt` at `x` with bit `i`
forced to 1. -/
def cofactor1 (tt : TT) (i : Nat) : TT :=
  ⟨tt.n, fun x => tt.bitAt (x ||| 2^i)⟩

/-- kitty `cofactor0 tt i`: bit `x` is the value of `tt` at `x` with bit `i`
forced to 0. -/
def cofactor0 (tt : TT) (i : Nat) : TT :=
  ⟨tt.n, fun x => tt.bitAt ((x ||| 2^i) - 2^i)⟩

/-- kitty `flip_inplace tt i`: XOR the polarity of input variable `i`. -/
def flipVar (tt : TT) (i : Nat) : TT :=
  ⟨tt.n, fun x => tt.bitAt (x ^^^ 2^i)⟩

/-- kitty bitwise complement `~tt`. -/
def compl (tt : TT) : TT :=
  ⟨tt.n, fun x => !(tt.bitAt x)⟩

/-- Number of 64-bit storage blocks of a table with `n` variables
(`max(1, 2^n / 64)`), over which the classifier iterates. -/
def numBlocks (n : Nat) : Nat := max 1 (2^n / 64)

/-- The bit offsets inside one 64-bit block that the classifier's inner loop
examines.  The source computes `limit = 2^(2*n)` in a `uint64_t` and masks
with `j = 1, 2, 4, ...` while `j <= limit`, so offsets `0 .. 2*n` are
examined when `2*n ≤ 62`, and the limit wraps to `0` (no offsets at all)
when `2*n ≥ 64`; `2*n = 63` cannot occur. -/
def scanOffsets (n : Nat) : List Nat :=
  if 2*n ≤ 62 then List.range (2*n + 1) else []

/-- Positive-unateness evidence for variable `i` as collected by the source's
scan: some examined position has `cofactor1` bit 1 and `cofactor0` bit 0. -/
def posEvidence (tt : TT) (i : Nat) : Bool :=
  (List.range (numBlocks tt.n)).any fun w =>
    (scanOffsets tt.n).any fun k =>
      (cofactor1 tt i).bitAt (64*w + k) && !((cofactor0 tt i).bitAt (64*w + k))

/-- Negative-unateness evidence for variable `i` as collected by the source's
scan. -/
def negEvidence (tt : TT) (i : Nat) : Bool :=
  (List.range (numBlocks tt.n)).any fun w =>
    (scanOffsets tt.n).any fun k =>
      !((cofactor1 tt i).bitAt (64*w + k)) && ((cofactor0 tt i).bitAt (64*w + k))

/-- Positive-unateness evidence over all `2^n` output positions (the scan the
specification describes). -/
def posEvidenceFull (tt : TT) (i : Nat) : Bool :=
  (List.range (2^tt.n)).any fun x =>
    (cofactor1 tt i).bitAt x && !((cofactor0 tt i).bitAt x)

/-- Negative-unateness evidence over all `2^n` output positions. -/
def negEvidenceFull (tt : TT) (i : Nat) : Bool :=
  (List.range (2^tt.n)).any fun x =>
    !((cofactor1 tt i).bitAt x) && ((cofactor0 tt i).bitAt x)

/-- The classification loop (source lines 78-124): for each variable in
order, fail (`none`, the early `return false`) if both evidence kinds occur,
otherwise push `true` on positive evidence, `false` on negative evidence,
and nothing at all when the scan saw no evidence. -/
def buildUnateness (tt : TT) : List Nat → Option (List Bool)
  | [] => some []
  | i :: rest =>
    if posEvidence tt i && negEvidence tt i then none
    else (buildUnateness tt rest).map fun r =>
      (if posEvidence tt i then [true]
       else if negEvidence tt i then [false]
       else []) ++ r

/-- The normalization loop (source lines 127-131): for `i = 0 .. numVars-1`,
flip variable `i` of the working copy when `unateness[i]` is `false`.  The
source indexes `unateness[i]` unconditionally; an out-of-bounds access is
undefined behaviour, modelled as `none`. -/
def flipLoop (u : List Bool) : List Nat → TT → Option TT
  | [], t => some t
  | i :: rest, t =>
    match u.get? i with
    | none => none
    | some b => flipLoop u rest (if b then t else flipVar t i)

/-- An ISOP cube over `n` variables, kitty representation: a polarity word
and a care-mask word. -/
structure Cube where
  bits : Nat
  mask : Nat

/-- Membership of assignment `x` in cube `c`: every cared-about variable
agrees with the cube's polarity bit. -/
def cubeMem (c : Cube) (n x : Nat) : Bool :=
  (List.range n).all fun i => !c.mask.testBit i || (x.testBit i == c.bits.testBit i)

/-- Relational operator of an LP constraint row. -/
inductive Rel
  | ge
  | le

/-- One LP constraint row: coefficients for columns `w_1 .. w_n, T`
(the source's dummy 0-th entry of the coefficient array is dropped), a
relational operator and a right-hand side. -/
structure Row where
  coeffs : List Int
  rel : Rel
  rhs : Int

/-- Dot product of a row's coefficients with a solution vector. -/
def dotprod (coeffs sol : List Int) : Int :=
  ∑ i in Finset.range coeffs.length, coeffs.getD i 0 * sol.getD i 0

/-- Whether a solution satisfies a row. -/
def Row.sat (r : Row) (sol : List Int) : Bool :=
  match r.rel with
  | Rel.ge => decide (r.rhs ≤ dotprod r.coeffs sol)
  | Rel.le => decide (dotprod r.coeffs sol ≤ r.rhs)

/-- Non-negativity row for column `i` (source lines 162-166). -/
def unitRow (ncols i : Nat) : Row :=
  ⟨(List.range ncols).map (fun j => if j = i then (1:Int) else 0), Rel.ge, 0⟩

/-- The ordering row `Σ w_i - T ≥ 0` (source lines 168-173). -/
def baseRow (numVars : Nat) : Row :=
  ⟨(List.range numVars).map (fun _ => (1:Int)) ++ [(-1:Int)], Rel.ge, 0⟩

/-- Row added for one onset cube (source lines 176-185): coefficient
`get_mask i && get_bit i` for each weight, `-1` for `T`, `≥ 0`. -/
def onsetRow (numVars : Nat) (c : Cube) : Row :=
  ⟨(List.range numVars).map
      (fun i => if c.mask.testBit i && c.bits.testBit i then (1:Int) else 0)
    ++ [(-1:Int)], Rel.ge, 0⟩

/-- Row added for one offset cube (source lines 188-197): coefficient
`!get_mask i || (get_bit i && get_mask i)` for each weight, `-1` for `T`,
`≤ -1`. -/
def offsetRow (numVars : Nat) (c : Cube) : Row :=
  ⟨(List.range numVars).map
      (fun i => if !c.mask.testBit i || (c.bits.testBit i && c.mask.testBit i)
                then (1:Int) else 0)
    ++ [(-1:Int)], Rel.le, -1⟩

/-- The LP model: `numVars + 1` integer columns, the all-ones objective and
the constraint rows in the order the source adds them. -/
structure LPModel where
  ncols : Nat
  obj : List Int
  rows : List Row

/-- Model construction (source lines 140-197). -/
def buildModel (numVars : Nat) (onCubes offCubes : List Cube) : LPModel :=
  { ncols := numVars + 1
  , obj := List.replicate (numVars + 1) (1:Int)
  , rows := (List.range (numVars + 1)).map (unitRow (numVars + 1))
      ++ [baseRow numVars]
      ++ onCubes.map (onsetRow numVars)
      ++ offCubes.map (offsetRow numVars) }

/-- The back-translation loop (source lines 216-222): for each index `i`
drawn from `0 .. unateness.size()-1`, when `unateness[i]` is `false` negate
entry `i` of the linear form and add the negated weight to entry
`numVars`. -/
def translateLoop (numVars : Nat) (u : List Bool) : List Nat → List Int → List Int
  | [], lf => lf
  | i :: rest, lf =>
    if u.getD i true then translateLoop numVars u rest lf
    else
      let temp : Int := -(lf.getD i 0)
      let lf1 := lf.set i temp
      translateLoop numVars u rest (lf1.set numVars (lf1.getD numVars 0 + temp))

/-- Back-translation of the solver's solution to the original polarity
space. -/
def translate (numVars : Nat) (u : List Bool) (sol : List Int) : List Int :=
  translateLoop numVars u (List.range u.length) sol

/-- The tail of `is_threshold` after classification and normalization have
succeeded (source lines 133-229): extract the covers, build and solve the
model, back-translate.  `none` from the solver models `solve`'s status
`ret >= 2`. -/
def afterFlip (isopFn : TT → List Cube) (solver : LPModel → Option (List Int))
    (makeLpOk : Nat → Bool) (tt : TT) (u : List Bool) (ttCopy : TT) :
    Option (Bool × Option (List Int)) :=
  if makeLpOk (tt.n + 1) then
    match solver (buildModel tt.n (isopFn ttCopy) (isopFn (compl ttCopy))) with
    | none => some (false, none)
    | some sol => some (true, some (translate tt.n u sol))
  else some (false, none)

def is_threshold (isopFn : TT → List Cube) (solver : LPModel → Option (List Int))
    (makeLpOk : Nat → Bool) (tt : TT) : Option (Bool × Option (List Int)) :=
  match buildUnateness tt (List.range tt.n) with
  | none => some (false, none)
  | some u =>
    match flipLoop u (List.range tt.n) tt with
    | none => none
    | some ttCopy => afterFlip isopFn solver makeLpOk tt u ttCopy

/- `is_threshold` above: the external collaborators are parameters
(`isopFn` the ISOP cube extractor, `solver` the ILP solver with `none`
modelling solver status `ret >= 2`, and `makeLpOk c` telling whether
`make_lp(0, c)` succeeds).  The result is `none` on the
undefined-behaviour path (out-of-bounds `unateness[i]`), otherwise
`some (b, form)` where `b` is the returned Boolean and `form` the value
written through `plf` (written only on the `true` path). -/

/-- Soundness of a solver adapter: any returned point has one value per
column and satisfies every row of the model it was asked to solve. -/
def SolverOk (solver : LPModel → Option (List Int)) : Prop :=
  ∀ m sol, solver m = some sol →
    sol.length = m.ncols ∧ ∀ r ∈ m.rows, r.sat sol = true

/-- Correctness of a cube-cover extractor: every point of the onset of the
argument table lies in some returned cube. -/
def IsopOk (isopFn : TT → List Cube) : Prop :=
  ∀ tt x, x < 2^tt.n → tt.bitAt x = true →
    ∃ c ∈ isopFn tt, cubeMem c tt.n x = true

/-- The weighted sum `Σ w_i x_i` of the first `n` entries of a linear form
against the assignment encoded by the bits of `x`. -/
def weightedSum (lf : List Int) (n : Nat) (x : Nat) : Int :=
  ∑ i in Finset.range n, (if x.testBit i then lf.getD i 0 else 0)

/-- A trivially correct cube extractor used to instantiate the collaborator
hypotheses in witnesses: one full-mask cube per onset minterm. -/
def mintermCover (tt : TT) : List Cube :=
  (List.range (2^tt.n)).filterMap fun x =>
    if tt.bitAt x then some ⟨x, 2^tt.n - 1⟩ else none

/-- A trivially sound solver adapter used in witnesses: it proposes
`guess m` and returns it only after checking it against the model. -/
def checkedSolver (guess : LPModel → List Int) : LPModel → Option (List Int) :=
  fun m =>
    let s := guess m
    if s.length = m.ncols ∧ (∀ r ∈ m.rows, r.sat s = true) then some s else none

/-! ### Basic list-access lemmas -/

lemma getD_map_range (g : Nat → Int) (n j : Nat) (hj : j < n) :
    ((List.range n).map g).getD j 0 = g j := by
  rw [List.getD_eq_getElem?_getD, List.getElem?_map, List.getElem?_range hj]
  rfl

lemma getD_append_lt (A B : List Int) (j : Nat) (hj : j < A.length) :
    (A ++ B).getD j 0 = A.getD j 0 := by
  rw [List.getD_eq_getElem?_getD, List.getD_eq_getElem?_getD,
    List.getElem?_append, if_pos hj]

lemma getD_append_self (A : List Int) (b : Int) :
    (A ++ [b]).getD A.length 0 = b := by
  rw [List.getD_eq_getElem?_getD, List.getElem?_append_right (le_refl _)]
  simp

/-! ### Dot products of the constructed rows -/

lemma dotprod_affine (g : Nat → Int) (n : Nat) (sol : List Int) :
    dotprod ((List.range n).map g ++ [(-1:Int)]) sol
      = (∑ i in Finset.range n, g i * sol.getD i 0) - sol.getD n 0 := by
  unfold dotprod
  have hlen : ((List.range n).map g ++ [(-1:Int)]).length = n + 1 := by simp
  rw [hlen, Finset.sum_range_succ]
  have h1 : ∀ i ∈ Finset.range n,
      ((List.range n).map g ++ [(-1:Int)]).getD i 0 * sol.getD i 0
        = g i * sol.getD i 0 := by
    intro i hi
    rw [Finset.mem_range] at hi
    rw [getD_append_lt _ _ _ (by simpa using hi), getD_map_range g n i hi]
  rw [Finset.sum_congr rfl h1]
  have h2 : ((List.range n).map g ++ [(-1:Int)]).getD n 0 = -1 := by
    have h := getD_append_self ((List.range n).map g) (-1:Int)
    simp only [List.length_map, List.length_range] at h
    exact h
  rw [h2]; ring

lemma onsetRow_sat_iff (n : Nat) (c : Cube) (sol : List Int) :
    (onsetRow n c).sat sol = true ↔
      sol.getD n 0 ≤ ∑ i in Finset.range n,
        (if c.mask.testBit i && c.bits.testBit i then sol.getD i 0 else 0) := by
  unfold onsetRow Row.sat
  simp only [decide_eq_true_eq]
  rw [dotprod_affine]
  simp only [ite_mul, one_mul, zero_mul]
  exact sub_nonneg

lemma offsetRow_sat_iff (n : Nat) (c : Cube) (sol : List Int) :
    (offsetRow n c).sat sol = true ↔
      (∑ i in Finset.range n,
        (if !c.mask.testBit i || (c.bits.testBit i && c.mask.testBit i)
         then sol.getD i 0 else 0)) ≤ sol.getD n 0 - 1 := by
  unfold offsetRow Row.sat
  simp only [decide_eq_true_eq]
  rw [dotprod_affine]
  simp only [ite_mul, one_mul, zero_mul]
  constructor <;> intro h <;> linarith

lemma unitRow_sat_iff (ncols i : Nat) (hi : i < ncols) (sol : List Int) :
    (unitRow ncols i).sat sol = true ↔ 0 ≤ sol.getD i 0 := by
  unfold unitRow Row.sat
  simp only [decide_eq_true_eq]
  unfold dotprod
  simp only [List.length_map, List.length_range]
  have h1 : ∀ j ∈ Finset.range ncols,
      ((List.range ncols).map fun j => if j = i then (1:Int) else 0).getD j 0
          * sol.getD j 0
        = if j = i then sol.getD j 0 else 0 := by
    intro j hj
    rw [Finset.mem_range] at hj
    rw [getD_map_range _ _ _ hj]
    by_cases h : j = i <;> simp [h]
  rw [Finset.sum_congr rfl h1, Finset.sum_ite_eq' (Finset.range ncols) i
    (fun j => sol.getD j 0), if_pos (Finset.mem_range.mpr hi)]

lemma baseRow_sat_iff (n : Nat) (sol : List Int) :
    (baseRow n).sat sol = true ↔
      sol.getD n 0 ≤ ∑ i in Finset.range n, sol.getD i 0 := by
  unfold baseRow Row.sat
  simp only [decide_eq_true_eq]
  rw [dotprod_affine]
  simp only [one_mul]
  exact sub_nonneg

/-! ### Membership of the constructed rows in the model -/

lemma mem_rows_unit (n : Nat) (onC offC : List Cube) (i : Nat) (hi : i < n + 1) :
    unitRow (n+1) i ∈ (buildModel n onC offC).rows := by
  have h : unitRow (n+1) i ∈ (List.range (n+1)).map (unitRow (n+1)) :=
    List.mem_map_of_mem _ (List.mem_range.mpr hi)
  simp only [buildModel, List.mem_append]
  tauto

lemma mem_rows_onset (n : Nat) (onC offC : List Cube) (c : Cube) (hc : c ∈ onC) :
    onsetRow n c ∈ (buildModel n onC offC).rows := by
  have h : onsetRow n c ∈ onC.map (onsetRow n) := List.mem_map_of_mem _ hc
  simp only [buildModel, List.mem_append]
  tauto

lemma mem_rows_offset (n : Nat) (onC offC : List Cube) (c : Cube) (hc : c ∈ offC) :
    offsetRow n c ∈ (buildModel n onC offC).rows := by
  have h : offsetRow n c ∈ offC.map (offsetRow n) := List.mem_map_of_mem _ hc
  simp only [buildModel, List.mem_append]
  tauto

lemma sol_nonneg (n : Nat) (onC offC : List Cube) (sol : List Int)
    (hsat : ∀ r ∈ (buildModel n onC offC).rows, r.sat sol = true)
    (i : Nat) (hi : i < n + 1) : 0 ≤ sol.getD i 0 :=
  (unitRow_sat_iff (n+1) i hi sol).mp (hsat _ (mem_rows_unit n onC offC i hi))

/-! ### Cube semantics against a feasible point -/

lemma cubeMem_agree {c : Cube} {n x i : Nat} (h : cubeMem c n x = true) (hi : i < n)
    (hm : c.mask.testBit i = true) : x.testBit i = c.bits.testBit i := by
  unfold cubeMem at h
  rw [List.all_eq_true] at h
  have h2 := h i (List.mem_range.mpr hi)
  rw [hm] at h2
  simpa using h2

lemma onset_cube_bound (n : Nat) (sol : List Int) (c : Cube) (x : Nat)
    (hmem : cubeMem c n x = true)
    (hnn : ∀ i, i < n → 0 ≤ sol.getD i 0)
    (hrow : (onsetRow n c).sat sol = true) :
    sol.getD n 0 ≤ weightedSum sol n x := by
  have h1 := (onsetRow_sat_iff n c sol).mp hrow
  refine le_trans h1 ?_
  unfold weightedSum
  apply Finset.sum_le_sum
  intro i hi
  rw [Finset.mem_range] at hi
  by_cases hm : (c.mask.testBit i && c.bits.testBit i) = true
  · rw [if_pos hm]
    rcases Bool.and_eq_true_iff.mp hm with ⟨hmask, hbit⟩
    have hx : x.testBit i = true := by rw [cubeMem_agree hmem hi hmask]; exact hbit
    rw [if_pos hx]
  · rw [if_neg hm]
    by_cases hx : x.testBit i = true
    · rw [if_pos hx]; exact hnn i hi
    · rw [if_neg hx]

lemma offset_cube_bound (n : Nat) (sol : List Int) (c : Cube) (x : Nat)
    (hmem : cubeMem c n x = true)
    (hnn : ∀ i, i < n → 0 ≤ sol.getD i 0)
    (hrow : (offsetRow n c).sat sol = true) :
    weightedSum sol n x ≤ sol.getD n 0 - 1 := by
  have h1 := (offsetRow_sat_iff n c sol).mp hrow
  refine le_trans ?_ h1
  unfold weightedSum
  apply Finset.sum_le_sum
  intro i hi
  rw [Finset.mem_range] at hi
  by_cases hx : x.testBit i = true
  · rw [if_pos hx]
    by_cases hm : c.mask.testBit i = true
    · have hb : c.bits.testBit i = true := by
        rw [← cubeMem_agree hmem hi hm]; exact hx
      rw [if_pos (by rw [hm, hb]; rfl)]
    · rw [if_pos (by rw [Bool.not_eq_true] at hm; rw [hm]; rfl)]
  · rw [if_neg hx]
    by_cases hc : (!c.mask.testBit i || (c.bits.testBit i && c.mask.testBit i)) = true
    · rw [if_pos hc]; exact hnn i hi
    · rw [if_neg hc]

/-- Any point satisfying all rows of the constructed model agrees with the
covered table exactly: the weighted sum reaches the threshold column exactly
on the onset. -/
lemma model_sound (n : Nat) (onC offC : List Cube) (sol : List Int) (tc : TT)
    (hsat : ∀ r ∈ (buildModel n onC offC).rows, r.sat sol = true)
    (honCover : ∀ x, x < 2^n → tc.bitAt x = true → ∃ c ∈ onC, cubeMem c n x = true)
    (hoffCover : ∀ x, x < 2^n → tc.bitAt x = false → ∃ c ∈ offC, cubeMem c n x = true) :
    ∀ x, x < 2^n → ((sol.getD n 0 ≤ weightedSum sol n x) ↔ tc.bitAt x = true) := by
  intro x hx
  have hnn : ∀ i, i < n → 0 ≤ sol.getD i 0 := fun i hi =>
    sol_nonneg n onC offC sol hsat i (Nat.lt_succ_of_lt hi)
  constructor
  · intro hle
    by_contra hne
    have hfalse : tc.bitAt x = false := by
      cases h : tc.bitAt x
      · rfl
      · exact absurd h hne
    obtain ⟨c, hc, hcm⟩ := hoffCover x hx hfalse
    have hrow : (offsetRow n c).sat sol = true :=
      hsat _ (mem_rows_offset n onC offC c hc)
    have hub := offset_cube_bound n sol c x hcm hnn hrow
    linarith
  · intro htrue
    obtain ⟨c, hc, hcm⟩ := honCover x hx htrue
    exact onset_cube_bound n sol c x hcm hnn
      (hsat _ (mem_rows_onset n onC offC c hc))

/-! ### The normalization flips as a single XOR mask -/

/-- The XOR mask accumulated by the normalization loop over the index list
`L`: variable `i` contributes `2^i` exactly when `unateness[i]` is
`false`. -/
def xmask (u : List Bool) : List Nat → Nat
  | [] => 0
  | i :: rest => (if u.getD i true then 0 else 2^i) ^^^ xmask u rest

lemma getD_of_get?_some {u : List Bool} {i : Nat} {b : Bool}
    (h : u.get? i = some b) (d : Bool) : u.getD i d = b := by
  rw [List.getD_eq_getElem?_getD, ← List.get?_eq_getElem?, h]
  rfl

lemma xmask_lt {u : List Bool} {n : Nat} :
    ∀ {L : List Nat}, (∀ i ∈ L, i < n) → xmask u L < 2^n := by
  intro L
  induction L with
  | nil => intro _; exact Nat.pos_pow_of_pos n (by norm_num)
  | cons i rest ih =>
    intro h
    unfold xmask
    apply Nat.xor_lt_two_pow
    · by_cases hb : u.getD i true
      · rw [if_pos hb]; exact Nat.pos_pow_of_pos n (by norm_num)
      · rw [if_neg hb]
        exact Nat.pow_lt_pow_right (by norm_num) (h i (List.mem_cons_self i rest))
    · exact ih fun j hj => h j (List.mem_cons_of_mem i hj)

lemma testBit_xmask_head {u : List Bool} {i j : Nat} (hij : j ≠ i) :
    (if u.getD j true then 0 else 2^j).testBit i = false := by
  by_cases hb : u.getD j true
  · rw [if_pos hb]; exact Nat.zero_testBit i
  · rw [if_neg hb, Nat.testBit_two_pow]
    exact decide_eq_false hij

lemma testBit_xmask_not_mem {u : List Bool} {i : Nat} :
    ∀ {L : List Nat}, i ∉ L → (xmask u L).testBit i = false := by
  intro L
  induction L with
  | nil => intro _; exact Nat.zero_testBit i
  | cons j rest ih =>
    intro h
    have hij : j ≠ i := by
      intro he
      rw [he] at h
      exact h (List.mem_cons_self i rest)
    have hr : i ∉ rest := fun hm => h (List.mem_cons_of_mem j hm)
    show ((if u.getD j true then 0 else 2^j) ^^^ xmask u rest).testBit i = false
    rw [Nat.testBit_xor, testBit_xmask_head hij, ih hr]
    rfl

lemma testBit_xmask_mem {u : List Bool} {i : Nat} :
    ∀ {L : List Nat}, L.Nodup → i ∈ L →
      (xmask u L).testBit i = !(u.getD i true) := by
  intro L
  induction L with
  | nil => intro _ h; exact absurd h (List.not_mem_nil i)
  | cons j rest ih =>
    intro hnd hmem
    have hndr := (List.nodup_cons.mp hnd).2
    have hjr := (List.nodup_cons.mp hnd).1
    show ((if u.getD j true then 0 else 2^j) ^^^ xmask u rest).testBit i
      = !(u.getD i true)
    rw [Nat.testBit_xor]
    rcases List.mem_cons.mp hmem with he | hr
    · subst he
      rw [testBit_xmask_not_mem hjr]
      by_cases hb : u.getD i true
      · rw [if_pos hb, Nat.zero_testBit, hb]
        rfl
      · have hb2 : u.getD i true = false := Bool.eq_false_iff.mpr hb
        rw [if_neg hb, Nat.testBit_two_pow, hb2]
        simp
    · have hij : j ≠ i := by
        intro he
        rw [he] at hjr
        exact hjr hr
      rw [testBit_xmask_head hij, ih hndr hr, Bool.false_xor]

/-! ### Properties of the classification and normalization loops -/

lemma buildUnateness_length {tt : TT} :
    ∀ {L : List Nat} {u : List Bool},
      buildUnateness tt L = some u → u.length ≤ L.length := by
  intro L
  induction L with
  | nil =>
    intro u h
    simp only [buildUnateness, Option.some.injEq] at h
    subst h; exact le_refl 0
  | cons i rest ih =>
    intro u h
    unfold buildUnateness at h
    by_cases hb : (posEvidence tt i && negEvidence tt i) = true
    · rw [if_pos hb] at h; exact absurd h (by simp)
    · rw [if_neg hb] at h
      cases hr : buildUnateness tt rest with
      | none => rw [hr] at h; exact absurd h (by simp)
      | some r =>
        rw [hr] at h
        have h4 : some ((if posEvidence tt i then [true]
            else if negEvidence tt i then [false] else []) ++ r) = some u := h
        have h5 := Option.some.inj h4
        subst h5
        rw [List.length_append]
        have h1 : (if posEvidence tt i then [true]
            else if negEvidence tt i then [false] else []).length ≤ 1 := by
          by_cases h2 : posEvidence tt i = true
          · rw [if_pos h2]; exact le_refl 1
          · rw [if_neg h2]
            by_cases h3 : negEvidence tt i = true
            · rw [if_pos h3]; exact le_refl 1
            · rw [if_neg h3]; exact Nat.zero_le 1
        have := ih hr
        simp only [List.length_cons]
        omega

lemma flipLoop_n {u : List Bool} :
    ∀ {L : List Nat} {t t2 : TT}, flipLoop u L t = some t2 → t2.n = t.n := by
  intro L
  induction L with
  | nil =>
    intro t t2 h
    simp only [flipLoop, Option.some.injEq] at h
    subst h; rfl
  | cons i rest ih =>
    intro t t2 h
    unfold flipLoop at h
    cases hg : u.get? i with
    | none => rw [hg] at h; exact absurd h (by simp)
    | some b =>
      rw [hg] at h
      have h2 : flipLoop u rest (if b then t else flipVar t i) = some t2 := h
      cases b
      · have h3 : flipLoop u rest (flipVar t i) = some t2 := h2
        show t2.n = (flipVar t i).n
        exact ih h3
      · have h3 : flipLoop u rest t = some t2 := h2
        exact ih h3

lemma flipLoop_inbounds {u : List Bool} :
    ∀ {L : List Nat} {t t2 : TT}, flipLoop u L t = some t2 →
      ∀ i ∈ L, i < u.length := by
  intro L
  induction L with
  | nil => intro t t2 _ i hi; exact absurd hi (List.not_mem_nil i)
  | cons j rest ih =>
    intro t t2 h i hi
    unfold flipLoop at h
    cases hg : u.get? j with
    | none => rw [hg] at h; exact absurd h (by simp)
    | some b =>
      rw [hg] at h
      have h2 : flipLoop u rest (if b then t else flipVar t j) = some t2 := h
      rcases List.mem_cons.mp hi with he | hr
      · subst he
        by_contra hlen
        rw [List.get?_eq_none.mpr (Nat.le_of_not_lt hlen)] at hg
        exact absurd hg (by simp)
      · exact ih h2 i hr

lemma flipLoop_bitAt {u : List Bool} :
    ∀ {L : List Nat} {t t2 : TT},
      (∀ i ∈ L, i < t.n) → flipLoop u L t = some t2 →
      ∀ x, x < 2^t.n → t2.bitAt x = t.bitAt (x ^^^ xmask u L) := by
  intro L
  induction L with
  | nil =>
    intro t t2 _ h x _
    simp only [flipLoop, Option.some.injEq] at h
    subst h
    have hz : xmask u [] = 0 := rfl
    rw [hz, Nat.xor_zero]
  | cons i rest ih =>
    intro t t2 hL h x hx
    unfold flipLoop at h
    cases hg : u.get? i with
    | none => rw [hg] at h; exact absurd h (by simp)
    | some b =>
      rw [hg] at h
      have h2 : flipLoop u rest (if b then t else flipVar t i) = some t2 := h
      have hgd : u.getD i true = b := getD_of_get?_some hg true
      have hi : i < t.n := hL i (List.mem_cons_self i rest)
      have hrest : ∀ j ∈ rest, j < t.n := fun j hj => hL j (List.mem_cons_of_mem i hj)
      have hxm : xmask u rest < 2^t.n := xmask_lt hrest
      cases b with
      | true =>
        have h3 : flipLoop u rest t = some t2 := h2
        have hstep := ih hrest h3 x hx
        have hxe : xmask u (i :: rest) = xmask u rest := by
          show (if u.getD i true then 0 else 2^i) ^^^ xmask u rest = xmask u rest
          rw [hgd]
          simp
        rw [hxe]
        exact hstep
      | false =>
        have h3 : flipLoop u rest (flipVar t i) = some t2 := h2
        have hrest2 : ∀ j ∈ rest, j < (flipVar t i).n := hrest
        have hstep := ih hrest2 h3 x hx
        rw [hstep]
        have hy : x ^^^ xmask u rest < 2^t.n := Nat.xor_lt_two_pow hx hxm
        have hflip : (flipVar t i).bitAt (x ^^^ xmask u rest)
            = t.bitAt ((x ^^^ xmask u rest) ^^^ 2^i) := by
          unfold flipVar TT.bitAt
          simp only
          rw [if_pos hy]
        rw [hflip]
        have hxe : xmask u (i :: rest) = 2^i ^^^ xmask u rest := by
          show (if u.getD i true then 0 else 2^i) ^^^ xmask u rest
            = 2^i ^^^ xmask u rest
          rw [hgd]
          simp
        have harg : (x ^^^ xmask u rest) ^^^ 2^i = x ^^^ (2^i ^^^ xmask u rest) := by
          rw [Nat.xor_assoc, Nat.xor_comm (xmask u rest) (2^i)]
        rw [harg, hxe]

/-! ### The back-translation loop in closed form -/

lemma getD_set_eq {l : List Int} {i : Nat} {v : Int} (h : i < l.length) :
    (l.set i v).getD i 0 = v := by
  rw [List.getD_eq_getElem?_getD, List.getElem?_set, if_pos rfl, if_pos h]
  rfl

lemma getD_set_ne {l : List Int} {i j : Nat} {v : Int} (h : i ≠ j) :
    (l.set i v).getD j 0 = l.getD j 0 := by
  rw [List.getD_eq_getElem?_getD, List.getElem?_set, if_neg h,
    ← List.getD_eq_getElem?_getD]

lemma translateLoop_spec (numVars : Nat) (u : List Bool) :
    ∀ (L : List Nat) (lf : List Int), L.Nodup → (∀ i ∈ L, i < numVars) →
      numVars < lf.length →
      (translateLoop numVars u L lf).length = lf.length
      ∧ (∀ j, j < numVars →
          (translateLoop numVars u L lf).getD j 0 =
            if j ∈ L ∧ u.getD j true = false then -(lf.getD j 0) else lf.getD j 0)
      ∧ (translateLoop numVars u L lf).getD numVars 0 =
          lf.getD numVars 0
            - ((L.map fun k => if u.getD k true then 0 else lf.getD k 0).sum) := by
  intro L
  induction L with
  | nil =>
    intro lf _ _ _
    refine ⟨rfl, ?_, ?_⟩
    · intro j _
      rw [if_neg fun hc => List.not_mem_nil j hc.1]
      rfl
    · show lf.getD numVars 0 = lf.getD numVars 0 - (([] : List Int).sum)
      simp
  | cons i rest ih =>
    intro lf hnd hL hlen
    have hir : i ∉ rest := (List.nodup_cons.mp hnd).1
    have hndr : rest.Nodup := (List.nodup_cons.mp hnd).2
    have hiN : i < numVars := hL i (List.mem_cons_self i rest)
    have hLr : ∀ j ∈ rest, j < numVars := fun j hj => hL j (List.mem_cons_of_mem i hj)
    by_cases hb : u.getD i true
    · have hred : translateLoop numVars u (i :: rest) lf
          = translateLoop numVars u rest lf := by
        simp only [translateLoop]
        rw [if_pos hb]
      rcases ih lf hndr hLr hlen with ⟨ha, hbj, hc⟩
      rw [hred]
      refine ⟨ha, ?_, ?_⟩
      · intro j hj
        rw [hbj j hj]
        by_cases hjr : j ∈ rest ∧ u.getD j true = false
        · rw [if_pos hjr, if_pos ⟨List.mem_cons_of_mem i hjr.1, hjr.2⟩]
        · rw [if_neg hjr, if_neg ?_]
          intro hc2
          apply hjr
          rcases hc2 with ⟨hm, hf⟩
          rcases List.mem_cons.mp hm with he | hmr
          · rw [he] at hf
            rw [hb] at hf
            cases hf
          · exact ⟨hmr, hf⟩
      · rw [hc]
        have hs : ((i :: rest).map fun k => if u.getD k true then 0 else lf.getD k 0).sum
            = (rest.map fun k => if u.getD k true then 0 else lf.getD k 0).sum := by
          rw [List.map_cons, List.sum_cons, if_pos hb, zero_add]
        rw [hs]
    · have hred : translateLoop numVars u (i :: rest) lf
          = translateLoop numVars u rest
              ((lf.set i (-(lf.getD i 0))).set numVars
                ((lf.set i (-(lf.getD i 0))).getD numVars 0 + -(lf.getD i 0))) := by
        simp only [translateLoop]
        rw [if_neg hb]
      have hif : i < lf.length := lt_trans hiN hlen
      have hine : i ≠ numVars := Nat.ne_of_lt hiN
      have hlen1 : (lf.set i (-(lf.getD i 0))).length = lf.length :=
        List.length_set lf i _
      have hlen2 : ((lf.set i (-(lf.getD i 0))).set numVars
          ((lf.set i (-(lf.getD i 0))).getD numVars 0 + -(lf.getD i 0))).length
            = lf.length := by
        rw [List.length_set, hlen1]
      have e1 : ((lf.set i (-(lf.getD i 0))).set numVars
          ((lf.set i (-(lf.getD i 0))).getD numVars 0 + -(lf.getD i 0))).getD i 0
            = -(lf.getD i 0) := by
        rw [getD_set_ne (Ne.symm hine), getD_set_eq hif]
      have e2 : ∀ j, j < numVars → j ≠ i →
          ((lf.set i (-(lf.getD i 0))).set numVars
            ((lf.set i (-(lf.getD i 0))).getD numVars 0 + -(lf.getD i 0))).getD j 0
              = lf.getD j 0 := by
        intro j hj hji
        rw [getD_set_ne (Ne.symm (Nat.ne_of_lt hj)), getD_set_ne (Ne.symm hji)]
      have e3 : ((lf.set i (-(lf.getD i 0))).set numVars
          ((lf.set i (-(lf.getD i 0))).getD numVars 0 + -(lf.getD i 0))).getD numVars 0
            = lf.getD numVars 0 + -(lf.getD i 0) := by
        rw [getD_set_eq (by rw [hlen1]; exact hlen), getD_set_ne hine]
      rcases ih ((lf.set i (-(lf.getD i 0))).set numVars
          ((lf.set i (-(lf.getD i 0))).getD numVars 0 + -(lf.getD i 0)))
          hndr hLr (by rw [hlen2]; exact hlen) with ⟨ha, hbj, hc⟩
      rw [hred]
      refine ⟨by rw [ha, hlen2], ?_, ?_⟩
      · intro j hj
        rw [hbj j hj]
        by_cases hji : j = i
        · rw [hji]
          rw [if_neg fun hx => hir hx.1, e1,
            if_pos ⟨List.mem_cons_self i rest, Bool.eq_false_iff.mpr hb⟩]
        · by_cases hjr : j ∈ rest ∧ u.getD j true = false
          · rw [if_pos hjr, e2 j hj hji,
              if_pos ⟨List.mem_cons_of_mem i hjr.1, hjr.2⟩]
          · rw [if_neg hjr, e2 j hj hji, if_neg ?_]
            intro hc2
            apply hjr
            rcases hc2 with ⟨hm, hf⟩
            rcases List.mem_cons.mp hm with he | hmr
            · exact absurd he hji
            · exact ⟨hmr, hf⟩
      · rw [hc, e3]
        have hsum : (rest.map fun k => if u.getD k true then 0 else
            ((lf.set i (-(lf.getD i 0))).set numVars
              ((lf.set i (-(lf.getD i 0))).getD numVars 0 + -(lf.getD i 0))).getD k 0).sum
            = (rest.map fun k => if u.getD k true then 0 else lf.getD k 0).sum := by
          have hmc : (rest.map fun k => if u.getD k true then 0 else
              ((lf.set i (-(lf.getD i 0))).set numVars
                ((lf.set i (-(lf.getD i 0))).getD numVars 0 + -(lf.getD i 0))).getD k 0)
              = rest.map fun k => if u.getD k true then 0 else lf.getD k 0 := by
            apply List.map_congr_left
            intro k hk
            by_cases hbk : u.getD k true
            · rw [if_pos hbk, if_pos hbk]
            · rw [if_neg hbk, if_neg hbk]
              exact e2 k (hLr k hk) fun he => hir (he ▸ hk)
          rw [hmc]
        rw [hsum, List.map_cons, List.sum_cons, if_neg hb]
        ring

lemma list_sum_map_range (f : Nat → Int) :
    ∀ n, ((List.range n).map f).sum = ∑ i in Finset.range n, f i := by
  intro n
  induction n with
  | zero => simp
  | succ m ih =>
    rw [List.range_succ, List.map_append, List.sum_append,
      Finset.sum_range_succ, ih]
    simp

/-- Closed form of the back-translation: negate the weights of the flipped
variables and subtract them from the threshold entry. -/
lemma translate_spec (n : Nat) (u : List Bool) (sol : List Int)
    (hu : u.length = n) (hs : sol.length = n + 1) :
    (translate n u sol).length = n + 1
    ∧ (∀ j, j < n → (translate n u sol).getD j 0 =
        if u.getD j true then sol.getD j 0 else -(sol.getD j 0))
    ∧ (translate n u sol).getD n 0 =
        sol.getD n 0
          - ∑ i in Finset.range n, (if u.getD i true then 0 else sol.getD i 0) := by
  have hnd : (List.range u.length).Nodup := List.nodup_range u.length
  have hL : ∀ i ∈ List.range u.length, i < n := by
    intro i hi
    rw [← hu]
    exact List.mem_range.mp hi
  have hlen : n < sol.length := by rw [hs]; exact Nat.lt_succ_self n
  rcases translateLoop_spec n u (List.range u.length) sol hnd hL hlen
    with ⟨ha, hb, hc⟩
  unfold translate
  refine ⟨by rw [ha, hs], ?_, ?_⟩
  · intro j hj
    rw [hb j hj]
    by_cases hbu : u.getD j true
    · rw [if_pos hbu, if_neg ?_]
      intro hx
      rw [hbu] at hx
      cases hx.2
    · rw [if_neg hbu,
        if_pos ⟨List.mem_range.mpr (by rw [hu]; exact hj), Bool.eq_false_iff.mpr hbu⟩]
  · rw [hc, hu, list_sum_map_range]

/-! ### The witness collaborators satisfy their contracts -/

lemma checkedSolver_ok (guess : LPModel → List Int) : SolverOk (checkedSolver guess) := by
  intro m sol h
  have h0 : (if (guess m).length = m.ncols ∧ (∀ r ∈ m.rows, r.sat (guess m) = true)
      then some (guess m) else none) = some sol := h
  by_cases hc : (guess m).length = m.ncols ∧ (∀ r ∈ m.rows, r.sat (guess m) = true)
  · rw [if_pos hc] at h0
    have h2 := Option.some.inj h0
    rw [← h2]
    exact hc
  · rw [if_neg hc] at h0
    cases h0

lemma mintermCover_ok : IsopOk mintermCover := by
  intro tt x hx htrue
  refine ⟨⟨x, 2^tt.n - 1⟩, ?_, ?_⟩
  · unfold mintermCover
    rw [List.mem_filterMap]
    exact ⟨x, List.mem_range.mpr hx, by rw [if_pos htrue]⟩
  · unfold cubeMem
    rw [List.all_eq_true]
    intro i _
    simp

lemma compl_n (tt : TT) : (compl tt).n = tt.n := rfl

lemma compl_bitAt {tt : TT} {x : Nat} (hx : x < 2^tt.n) :
    (compl tt).bitAt x = !(tt.bitAt x) := by
  unfold compl TT.bitAt
  simp only
  rw [if_pos hx, if_pos hx]

/-! ### Path characterizations of `is_threshold` -/

lemma is_threshold_eq_binate {isopFn : TT → List Cube}
    {solver : LPModel → Option (List Int)} {mk : Nat → Bool} {tt : TT}
    (hu : buildUnateness tt (List.range tt.n) = none) :
    is_threshold isopFn solver mk tt = some (false, none) := by
  unfold is_threshold
  rw [hu]

lemma is_threshold_eq_oob {isopFn : TT → List Cube}
    {solver : LPModel → Option (List Int)} {mk : Nat → Bool} {tt : TT}
    {u : List Bool}
    (hu : buildUnateness tt (List.range tt.n) = some u)
    (hf : flipLoop u (List.range tt.n) tt = none) :
    is_threshold isopFn solver mk tt = none := by
  unfold is_threshold
  rw [hu]
  show (match flipLoop u (List.range tt.n) tt with
    | none => none
    | some ttCopy => afterFlip isopFn solver mk tt u ttCopy) = none
  rw [hf]

lemma is_threshold_eq_flip {isopFn : TT → List Cube}
    {solver : LPModel → Option (List Int)} {mk : Nat → Bool} {tt : TT}
    {u : List Bool} {ttCopy : TT}
    (hu : buildUnateness tt (List.range tt.n) = some u)
    (hf : flipLoop u (List.range tt.n) tt = some ttCopy) :
    is_threshold isopFn solver mk tt = afterFlip isopFn solver mk tt u ttCopy := by
  unfold is_threshold
  rw [hu]
  show (match flipLoop u (List.range tt.n) tt with
    | none => none
    | some ttCopy => afterFlip isopFn solver mk tt u ttCopy)
      = afterFlip isopFn solver mk tt u ttCopy
  rw [hf]

lemma is_threshold_eq_nolp {isopFn : TT → List Cube}
    {solver : LPModel → Option (List Int)} {mk : Nat → Bool} {tt : TT}
    {u : List Bool} {ttCopy : TT}
    (hu : buildUnateness tt (List.range tt.n) = some u)
    (hf : flipLoop u (List.range tt.n) tt = some ttCopy)
    (hmk : mk (tt.n + 1) = false) :
    is_threshold isopFn solver mk tt = some (false, none) := by
  rw [is_threshold_eq_flip hu hf]
  unfold afterFlip
  rw [hmk]
  rfl

lemma is_threshold_eq_infeasible {isopFn : TT → List Cube}
    {solver : LPModel → Option (List Int)} {mk : Nat → Bool} {tt : TT}
    {u : List Bool} {ttCopy : TT}
    (hu : buildUnateness tt (List.range tt.n) = some u)
    (hf : flipLoop u (List.range tt.n) tt = some ttCopy)
    (hmk : mk (tt.n + 1) = true)
    (hs : solver (buildModel tt.n (isopFn ttCopy) (isopFn (compl ttCopy))) = none) :
    is_threshold isopFn solver mk tt = some (false, none) := by
  rw [is_threshold_eq_flip hu hf]
  unfold afterFlip
  rw [hmk, hs]
  rfl

lemma is_threshold_eq_solved {isopFn : TT → List Cube}
    {solver : LPModel → Option (List Int)} {mk : Nat → Bool} {tt : TT}
    {u : List Bool} {ttCopy : TT} {sol : List Int}
    (hu : buildUnateness tt (List.range tt.n) = some u)
    (hf : flipLoop u (List.range tt.n) tt = some ttCopy)
    (hmk : mk (tt.n + 1) = true)
    (hs : solver (buildModel tt.n (isopFn ttCopy) (isopFn (compl ttCopy))) = some sol) :
    is_threshold isopFn solver mk tt = some (true, some (translate tt.n u sol)) := by
  rw [is_threshold_eq_flip hu hf]
  unfold afterFlip
  rw [hmk, hs]
  rfl

lemma is_threshold_true_elim {isopFn : TT → List Cube}
    {solver : LPModel → Option (List Int)} {mk : Nat → Bool} {tt : TT}
    {res : Option (List Int)}
    (h : is_threshold isopFn solver mk tt = some (true, res)) :
    ∃ u ttCopy sol,
      buildUnateness tt (List.range tt.n) = some u
      ∧ flipLoop u (List.range tt.n) tt = some ttCopy
      ∧ mk (tt.n + 1) = true
      ∧ solver (buildModel tt.n (isopFn ttCopy) (isopFn (compl ttCopy))) = some sol
      ∧ res = some (translate tt.n u sol) := by
  cases hu : buildUnateness tt (List.range tt.n) with
  | none =>
    rw [is_threshold_eq_binate hu] at h
    exact absurd h (by simp)
  | some u =>
    cases hf : flipLoop u (List.range tt.n) tt with
    | none =>
      rw [is_threshold_eq_oob hu hf] at h
      exact absurd h (by simp)
    | some ttCopy =>
      cases hmk : mk (tt.n + 1) with
      | false =>
        rw [is_threshold_eq_nolp hu hf hmk] at h
        exact absurd h (by simp)
      | true =>
        cases hs : solver (buildModel tt.n (isopFn ttCopy) (isopFn (compl ttCopy))) with
        | none =>
          rw [is_threshold_eq_infeasible hu hf hmk hs] at h
          exact absurd h (by simp)
        | some sol =>
          rw [is_threshold_eq_solved hu hf hmk hs] at h
          simp only [Option.some.injEq, Prod.mk.injEq, true_and] at h
          exact ⟨u, ttCopy, sol, rfl, hf, rfl, hs, h.symm⟩

/-! ### Concrete tables used in witnesses and counterexamples -/

/-- The one-variable identity function `f = x1`. -/
def tt1 : TT := ⟨1, fun x => x == 1⟩

/-- A guess the checked solver verifies for `tt1`: `w1 = 1`, `T = 1`. -/
def g1 : LPModel → List Int := fun _ => [1, 1]

/-- C1: Soundness round-trip.  Whenever `is_threshold` (with a cube
extractor that covers the onset and a solver that only returns feasible
points) returns `true` together with a linear form `[w1, ..., wn, T]`, the
predicate `Σ wᵢxᵢ ≥ T` agrees with the input table on every assignment. -/
theorem is_threshold_sound
    (isopFn : TT → List Cube) (solver : LPModel → Option (List Int))
    (mk : Nat → Bool) (tt : TT) (lf : List Int)
    (hisop : IsopOk isopFn) (hsolver : SolverOk solver)
    (hrun : is_threshold isopFn solver mk tt = some (true, some lf)) :
    ∀ x, x < 2^tt.n →
      ((lf.getD tt.n 0 ≤ weightedSum lf tt.n x) ↔ tt.bitAt x = true) := by
  obtain ⟨u, ttCopy, sol, hu, hf, hmk, hs, hres⟩ := is_threshold_true_elim hrun
  have hlf : lf = translate tt.n u sol := Option.some.inj hres
  have hulen_le : u.length ≤ tt.n := by
    have h := buildUnateness_length hu
    rw [List.length_range] at h
    exact h
  have hulen_ge : tt.n ≤ u.length := by
    by_contra hlt
    rw [not_le] at hlt
    exact lt_irrefl _ (flipLoop_inbounds hf u.length (List.mem_range.mpr hlt))
  have hulen : u.length = tt.n := le_antisymm hulen_le hulen_ge
  obtain ⟨hslen, hsat⟩ := hsolver _ _ hs
  have hcn : ttCopy.n = tt.n := flipLoop_n hf
  have hLmem : ∀ i ∈ List.range tt.n, i < tt.n := fun i hi => List.mem_range.mp hi
  have honCover : ∀ y, y < 2^tt.n → ttCopy.bitAt y = true →
      ∃ c ∈ isopFn ttCopy, cubeMem c tt.n y = true := by
    intro y hy ht
    have h2 := hisop ttCopy y (by rw [hcn]; exact hy) ht
    rw [hcn] at h2
    exact h2
  have hoffCover : ∀ y, y < 2^tt.n → ttCopy.bitAt y = false →
      ∃ c ∈ isopFn (compl ttCopy), cubeMem c tt.n y = true := by
    intro y hy ht
    have hyc : y < 2^(compl ttCopy).n := by rw [compl_n, hcn]; exact hy
    have hv : (compl ttCopy).bitAt y = true := by
      rw [compl_bitAt (by rw [hcn]; exact hy), ht]
      rfl
    have h2 := hisop (compl ttCopy) y hyc hv
    rw [compl_n, hcn] at h2
    exact h2
  have hms := model_sound tt.n (isopFn ttCopy) (isopFn (compl ttCopy)) sol ttCopy
    hsat honCover hoffCover
  rcases translate_spec tt.n u sol hulen hslen with ⟨htl, htj, htn⟩
  intro x hx
  rw [hlf]
  have hbit := flipLoop_bitAt hLmem hf
  have hmlt : xmask u (List.range tt.n) < 2^tt.n := xmask_lt hLmem
  have hxt : x ^^^ xmask u (List.range tt.n) < 2^tt.n := Nat.xor_lt_two_pow hx hmlt
  have hms2 := hms (x ^^^ xmask u (List.range tt.n)) hxt
  have hback : ttCopy.bitAt (x ^^^ xmask u (List.range tt.n)) = tt.bitAt x := by
    rw [hbit _ hxt, Nat.xor_cancel_right]
  have hterm : ∀ i ∈ Finset.range tt.n,
      (if x.testBit i then (translate tt.n u sol).getD i 0 else 0)
        + (if u.getD i true then 0 else sol.getD i 0)
      = (if (x ^^^ xmask u (List.range tt.n)).testBit i then sol.getD i 0 else 0) := by
    intro i hi
    rw [Finset.mem_range] at hi
    rw [htj i hi]
    have hxm : (x ^^^ xmask u (List.range tt.n)).testBit i
        = ((x.testBit i).xor (!(u.getD i true))) := by
      rw [Nat.testBit_xor,
        testBit_xmask_mem (List.nodup_range tt.n) (List.mem_range.mpr hi)]
    rw [hxm]
    by_cases hbu : u.getD i true
    · rw [hbu]
      by_cases hxb : x.testBit i = true
      · rw [hxb]; simp
      · rw [Bool.not_eq_true] at hxb
        rw [hxb]; simp
    · have hbu2 : u.getD i true = false := Bool.eq_false_iff.mpr hbu
      rw [hbu2]
      by_cases hxb : x.testBit i = true
      · rw [hxb]; simp
      · rw [Bool.not_eq_true] at hxb
        rw [hxb]; simp
  have hsum : weightedSum (translate tt.n u sol) tt.n x
      + (∑ i in Finset.range tt.n, (if u.getD i true then 0 else sol.getD i 0))
      = weightedSum sol tt.n (x ^^^ xmask u (List.range tt.n)) := by
    unfold weightedSum
    rw [← Finset.sum_add_distrib]
    exact Finset.sum_congr rfl hterm
  rw [← hback, ← hms2]
  constructor
  · intro h
    rw [htn] at h
    linarith [hsum]
  · intro h
    rw [htn]
    linarith [hsum]

/-- Witness for C1: on the one-variable identity function the pipeline
returns the form `[1, 1]`, and the soundness theorem applies at the
assignment `x = 1`. -/
theorem is_threshold_sound_witness :
    (([1, 1] : List Int).getD 1 0 ≤ weightedSum [1, 1] 1 1) ↔ tt1.bitAt 1 = true := by
  have h := is_threshold_sound mintermCover (checkedSolver g1) (fun _ => true) tt1
    [1, 1] mintermCover_ok (checkedSolver_ok g1) (by decide)
  exact h 1 (by decide)

/-! ### Further concrete tables -/

/-- The one-variable negation `f = ¬x1`. -/
def ttNot : TT := ⟨1, fun x => x == 0⟩

/-- The constant-0 function of one variable. -/
def constZero : TT := ⟨1, fun _ => false⟩

/-- The constant-1 function of one variable. -/
def constOne : TT := ⟨1, fun _ => true⟩

/-- A 4-variable table, `f(x) = 1` iff `x ∈ {13, 14}`: variable 0 has both
positive evidence (at positions 12/13) and negative evidence (at positions
14/15), all outside the source's scanned bit range `0..8`. -/
def ttBinateHigh : TT := ⟨4, fun x => x == 13 || x == 14⟩

/-- A 4-variable table, `f(x) = 1` iff `x ∈ {1, 14}`: variable 0 shows
positive evidence at scanned positions (0/1) and negative evidence only at
unscanned positions (14/15). -/
def ttScanGap : TT := ⟨4, fun x => x == 1 || x == 14⟩

/-- The 2-input XOR embedded in `n` variables. -/
def xorTT (n : Nat) : TT := ⟨n, fun x => (x.testBit 0).xor (x.testBit 1)⟩

/-! ### Cofactor reading lemmas -/

lemma cofactor1_bitAt {tt : TT} {i x : Nat} (hx : x < 2^tt.n) :
    (cofactor1 tt i).bitAt x = tt.bitAt (x ||| 2^i) := by
  show (if x < 2^tt.n then tt.bitAt (x ||| 2^i) else false) = tt.bitAt (x ||| 2^i)
  rw [if_pos hx]

lemma cofactor0_bitAt {tt : TT} {i x : Nat} (hx : x < 2^tt.n) :
    (cofactor0 tt i).bitAt x = tt.bitAt ((x ||| 2^i) - 2^i) := by
  show (if x < 2^tt.n then tt.bitAt ((x ||| 2^i) - 2^i) else false)
    = tt.bitAt ((x ||| 2^i) - 2^i)
  rw [if_pos hx]

lemma xorTT_bitAt {n x : Nat} (hx : x < 2^n) :
    (xorTT n).bitAt x = ((x.testBit 0).xor (x.testBit 1)) := by
  show (if x < 2^n then (x.testBit 0).xor (x.testBit 1) else false) = _
  rw [if_pos hx]

/-! ### Exhibiting evidence at one scanned position -/

lemma posEvidence_of_position {tt : TT} {i : Nat} (w k : Nat)
    (hw : w < numBlocks tt.n) (hk : k ∈ scanOffsets tt.n)
    (h1 : (cofactor1 tt i).bitAt (64*w + k) = true)
    (h0 : (cofactor0 tt i).bitAt (64*w + k) = false) :
    posEvidence tt i = true := by
  unfold posEvidence
  rw [List.any_eq_true]
  refine ⟨w, List.mem_range.mpr hw, ?_⟩
  rw [List.any_eq_true]
  exact ⟨k, hk, by rw [h1, h0]; rfl⟩

lemma negEvidence_of_position {tt : TT} {i : Nat} (w k : Nat)
    (hw : w < numBlocks tt.n) (hk : k ∈ scanOffsets tt.n)
    (h1 : (cofactor1 tt i).bitAt (64*w + k) = false)
    (h0 : (cofactor0 tt i).bitAt (64*w + k) = true) :
    negEvidence tt i = true := by
  unfold negEvidence
  rw [List.any_eq_true]
  refine ⟨w, List.mem_range.mpr hw, ?_⟩
  rw [List.any_eq_true]
  exact ⟨k, hk, by rw [h1, h0]; rfl⟩

/-! ### Classification outcomes -/

lemma buildUnateness_none_of_binate {tt : TT} {i : Nat}
    (hp : posEvidence tt i = true) (hn : negEvidence tt i = true) :
    ∀ L, i ∈ L → buildUnateness tt L = none := by
  intro L
  induction L with
  | nil => intro h; exact absurd h (List.not_mem_nil i)
  | cons j rest ih =>
    intro hmem
    unfold buildUnateness
    rcases List.mem_cons.mp hmem with he | hr
    · rw [← he, hp, hn]
      simp
    · by_cases hc : (posEvidence tt j && negEvidence tt j) = true
      · rw [if_pos hc]
      · rw [if_neg hc, ih hr]
        rfl

lemma scanOffsets_large {n : Nat} (h : 62 < 2*n) : scanOffsets n = [] := by
  unfold scanOffsets
  rw [if_neg (Nat.not_le.mpr h)]

lemma posEvidence_of_no_offsets {tt : TT} (h : scanOffsets tt.n = []) (i : Nat) :
    posEvidence tt i = false := by
  unfold posEvidence
  simp only [h, List.any_nil]
  exact List.any_eq_false.mpr fun x _ => by simp

lemma negEvidence_of_no_offsets {tt : TT} (h : scanOffsets tt.n = []) (i : Nat) :
    negEvidence tt i = false := by
  unfold negEvidence
  simp only [h, List.any_nil]
  exact List.any_eq_false.mpr fun x _ => by simp

lemma buildUnateness_no_evidence {tt : TT}
    (hp : ∀ i, posEvidence tt i = false) (hn : ∀ i, negEvidence tt i = false) :
    ∀ L, buildUnateness tt L = some [] := by
  intro L
  induction L with
  | nil => rfl
  | cons i rest ih =>
    unfold buildUnateness
    simp only [hp i, hn i, ih]
    simp

lemma flipLoop_nil_oob (t : TT) {n : Nat} (hn : 0 < n) :
    flipLoop [] (List.range n) t = none := by
  obtain ⟨m, rfl⟩ : ∃ m, n = m + 1 := ⟨n - 1, (Nat.succ_pred_eq_of_pos hn).symm⟩
  rw [List.range_succ_eq_map]
  rfl

/-! ### Caller-state threading (for the frame property) -/

/-- The call-local state: the caller's table and the working copy created by
`auto ttCopy = tt`. -/
structure CallCtx where
  caller : TT
  working : TT

/-- The normalization loop acting inside the call context: flips touch only
the working copy. -/
def flipLoopSt (u : List Bool) : List Nat → CallCtx → Option CallCtx
  | [], st => some st
  | i :: rest, st =>
    match u.get? i with
    | none => none
    | some b =>
      flipLoopSt u rest (if b then st else ⟨st.caller, flipVar st.working i⟩)

/-- `is_threshold` with the caller's table threaded through the call; the
second component is the caller's table as the call returns. -/
def is_threshold_run (isopFn : TT → List Cube) (solver : LPModel → Option (List Int))
    (makeLpOk : Nat → Bool) (tt : TT) :
    Option (Bool × Option (List Int)) × TT :=
  match buildUnateness tt (List.range tt.n) with
  | none => (some (false, none), tt)
  | some u =>
    match flipLoopSt u (List.range tt.n) ⟨tt, tt⟩ with
    | none => (none, tt)
    | some st => (afterFlip isopFn solver makeLpOk tt u st.working, st.caller)

lemma flipLoopSt_eq (u : List Bool) :
    ∀ (L : List Nat) (st : CallCtx),
      flipLoopSt u L st
        = (flipLoop u L st.working).map fun t => (⟨st.caller, t⟩ : CallCtx) := by
  intro L
  induction L with
  | nil => intro st; rfl
  | cons i rest ih =>
    intro st
    unfold flipLoopSt flipLoop
    cases hg : u.get? i with
    | none => rfl
    | some b =>
      cases b
      · exact ih ⟨st.caller, flipVar st.working i⟩
      · exact ih st

lemma flipLoopSt_eq2 (u : List Bool) (L : List Nat) (tt : TT) :
    flipLoopSt u L ⟨tt, tt⟩ = (flipLoop u L tt).map fun t => (⟨tt, t⟩ : CallCtx) :=
  flipLoopSt_eq u L ⟨tt, tt⟩

/-! ### Claim theorems C2 to C10 -/

/-- C2 (code bug evaluation): on `ttBinateHigh` variable 0 shows both
positive-unate and negative-unate evidence among the `2^n` positions, yet
`is_threshold` does not return `false`: both evidences lie outside the
scanned bit range, three variables receive no unateness entry, and the
normalization loop reads `unateness[1]` out of bounds (modelled `none`). -/
theorem binate_rejection_bug :
    posEvidenceFull ttBinateHigh 0 = true
    ∧ negEvidenceFull ttBinateHigh 0 = true
    ∧ is_threshold mintermCover (checkedSolver g1) (fun _ => true) ttBinateHigh
        = none := by
  exact ⟨by decide, by decide, by decide⟩

/-- C3: one row per cube with exactly the stated coefficient pattern.  The
model has `(n+1)` non-negativity rows, the ordering row, and then exactly
one row per onset cube and one per offset cube; an onset row is satisfied
iff the weights of the literals the cube cares about and asserts reach the
threshold, an offset row iff the weights of the literals not explicitly set
to false stay at least one below it. -/
theorem cube_rows_exact (n : Nat) (onC offC : List Cube) (sol : List Int)
    (_hlen : sol.length = n + 1) :
    (buildModel n onC offC).rows.length = (n + 1) + 1 + onC.length + offC.length
    ∧ (∀ c ∈ onC, onsetRow n c ∈ (buildModel n onC offC).rows
        ∧ ((onsetRow n c).sat sol = true ↔
            sol.getD n 0 ≤ ∑ i in Finset.range n,
              (if c.mask.testBit i && c.bits.testBit i then sol.getD i 0 else 0)))
    ∧ (∀ c ∈ offC, offsetRow n c ∈ (buildModel n onC offC).rows
        ∧ ((offsetRow n c).sat sol = true ↔
            (∑ i in Finset.range n,
              (if !c.mask.testBit i || (c.bits.testBit i && c.mask.testBit i)
               then sol.getD i 0 else 0)) ≤ sol.getD n 0 - 1)) := by
  refine ⟨?_, ?_, ?_⟩
  · simp only [buildModel, List.length_append, List.length_map, List.length_range,
      List.length_cons, List.length_nil]
  · intro c hc
    exact ⟨mem_rows_onset n onC offC c hc, onsetRow_sat_iff n c sol⟩
  · intro c hc
    exact ⟨mem_rows_offset n onC offC c hc, offsetRow_sat_iff n c sol⟩

/-- Witness for C3 at `n = 1` with one onset cube, one offset cube and the
solution `[1, 1]`. -/
theorem cube_rows_exact_witness :
    (buildModel 1 [⟨1, 1⟩] [⟨0, 1⟩]).rows.length = (1 + 1) + 1 + 1 + 1 := by
  have h := cube_rows_exact 1 [⟨1, 1⟩] [⟨0, 1⟩] [1, 1] (by decide)
  exact h.1

/-- C4: whenever the pipeline reaches a solver solution, the returned form
is the back-translation of that solution: each weight classified
negative-unate is negated, the others are returned unchanged, and the
threshold entry is the solver's threshold minus the sum of the weights of
the flipped variables. -/
theorem back_translation
    (isopFn : TT → List Cube) (solver : LPModel → Option (List Int))
    (mk : Nat → Bool) (tt : TT) (u : List Bool) (ttCopy : TT) (sol : List Int)
    (hu : buildUnateness tt (List.range tt.n) = some u)
    (hf : flipLoop u (List.range tt.n) tt = some ttCopy)
    (hmk : mk (tt.n + 1) = true)
    (hs : solver (buildModel tt.n (isopFn ttCopy) (isopFn (compl ttCopy))) = some sol)
    (hslen : sol.length = tt.n + 1) :
    is_threshold isopFn solver mk tt = some (true, some (translate tt.n u sol))
    ∧ (∀ i, i < tt.n → (translate tt.n u sol).getD i 0
        = (if u.getD i true then sol.getD i 0 else -(sol.getD i 0)))
    ∧ (translate tt.n u sol).getD tt.n 0
        = sol.getD tt.n 0
          - ∑ i in Finset.range tt.n, (if u.getD i true then 0 else sol.getD i 0) := by
  have hulen_le : u.length ≤ tt.n := by
    have h := buildUnateness_length hu
    rw [List.length_range] at h
    exact h
  have hulen_ge : tt.n ≤ u.length := by
    by_contra hlt
    rw [not_le] at hlt
    exact lt_irrefl _ (flipLoop_inbounds hf u.length (List.mem_range.mpr hlt))
  rcases translate_spec tt.n u sol (le_antisymm hulen_le hulen_ge) hslen
    with ⟨_, htj, htn⟩
  exact ⟨is_threshold_eq_solved hu hf hmk hs, htj, htn⟩

/-- Witness for C4 on `f = ¬x1`: variable 0 is negative-unate, the solver
returns `[1, 1]` for the flipped table, and the returned form is its
back-translation `[-1, 0]`. -/
theorem back_translation_witness :
    is_threshold mintermCover (checkedSolver g1) (fun _ => true) ttNot
      = some (true, some (translate 1 [false] [1, 1])) := by
  have h := back_translation mintermCover (checkedSolver g1) (fun _ => true) ttNot
    [false] (flipVar ttNot 0) [1, 1] (by decide) rfl rfl (by decide) (by decide)
  exact h.1

/-- C5 (code bug evaluation): on the constant-0 and constant-1 functions of
one variable no unateness entry is ever pushed, so the normalization loop
reads `unateness[0]` out of bounds (modelled `none`); `is_threshold` never
returns `true`. -/
theorem const_functions_bug :
    is_threshold mintermCover (checkedSolver g1) (fun _ => true) constZero = none
    ∧ is_threshold mintermCover (checkedSolver g1) (fun _ => true) constOne = none := by
  exact ⟨by decide, by decide⟩

/-- C6 (code bug evaluation): on `ttScanGap` the scan records positive
evidence for variable 0 and sees no negative evidence, although comparing
the cofactors at all `2^4` positions finds negative evidence as well — the
scan skips positions `9..15`, so the claimed exhaustive comparison does not
happen. -/
theorem scan_misses_positions :
    posEvidence ttScanGap 0 = true
    ∧ negEvidence ttScanGap 0 = false
    ∧ negEvidenceFull ttScanGap 0 = true := by
  exact ⟨by decide, by decide, by decide⟩

/-- C7 counterexample: for `n = 32` the claim fails — the `uint64_t` scan
limit `2^64` wraps to zero, no position is scanned, no unateness entry is
pushed, and the call hits the out-of-bounds read (modelled `none`) instead
of returning `false`. -/
theorem xor32_hits_oob :
    is_threshold mintermCover (checkedSolver g1) (fun _ => true) (xorTT 32)
      = none := by
  have hso : scanOffsets (xorTT 32).n = [] := scanOffsets_large (by decide)
  have hpn : ∀ i, posEvidence (xorTT 32) i = false := posEvidence_of_no_offsets hso
  have hnn : ∀ i, negEvidence (xorTT 32) i = false := negEvidence_of_no_offsets hso
  have hu : buildUnateness (xorTT 32) (List.range (xorTT 32).n) = some [] :=
    buildUnateness_no_evidence hpn hnn _
  have hf : flipLoop [] (List.range (xorTT 32).n) (xorTT 32) = none :=
    flipLoop_nil_oob _ (by decide)
  exact is_threshold_eq_oob hu hf

/-- C7 (amended): for every `2 ≤ n ≤ 31`, `is_threshold` on the 2-input XOR
embedded in `n` variables detects that variable 0 is binate (evidence at
positions 0 and 2, both scanned) and returns `false` with no linear form. -/
theorem xor_rejected_small
    (isopFn : TT → List Cube) (solver : LPModel → Option (List Int))
    (mk : Nat → Bool) (n : Nat) (h2 : 2 ≤ n) (h31 : n ≤ 31) :
    is_threshold isopFn solver mk (xorTT n) = some (false, none) := by
  have h4 : 4 ≤ 2^n := by
    calc (4:Nat) = 2^2 := by norm_num
    _ ≤ 2^n := Nat.pow_le_pow_right (by norm_num) h2
  have h0lt : (0:Nat) < 2^n := Nat.pos_pow_of_pos n (by norm_num)
  have h1lt : (1:Nat) < 2^n := by omega
  have h2lt : (2:Nat) < 2^n := by omega
  have h3lt : (3:Nat) < 2^n := by omega
  have hso : scanOffsets n = List.range (2*n+1) := by
    unfold scanOffsets
    rw [if_pos (by omega)]
  have hnb : 0 < numBlocks n := lt_of_lt_of_le Nat.zero_lt_one (le_max_left 1 _)
  have hb1 : (cofactor1 (xorTT n) 0).bitAt 0 = true := by
    rw [cofactor1_bitAt h0lt]
    have e1 : (0 ||| 2^0 : Nat) = 1 := by decide
    rw [e1, xorTT_bitAt h1lt]
    decide
  have hb0 : (cofactor0 (xorTT n) 0).bitAt 0 = false := by
    rw [cofactor0_bitAt h0lt]
    have e2 : ((0 ||| 2^0) - 2^0 : Nat) = 0 := by decide
    rw [e2, xorTT_bitAt h0lt]
    decide
  have hc1 : (cofactor1 (xorTT n) 0).bitAt 2 = false := by
    rw [cofactor1_bitAt h2lt]
    have e3 : (2 ||| 2^0 : Nat) = 3 := by decide
    rw [e3, xorTT_bitAt h3lt]
    decide
  have hc0 : (cofactor0 (xorTT n) 0).bitAt 2 = true := by
    rw [cofactor0_bitAt h2lt]
    have e4 : ((2 ||| 2^0) - 2^0 : Nat) = 2 := by decide
    rw [e4, xorTT_bitAt h2lt]
    decide
  have hk0 : (0:Nat) ∈ scanOffsets n := by
    rw [hso]
    exact List.mem_range.mpr (by omega)
  have hk2 : (2:Nat) ∈ scanOffsets n := by
    rw [hso]
    exact List.mem_range.mpr (by omega)
  have hpos : posEvidence (xorTT n) 0 = true :=
    posEvidence_of_position 0 0 hnb hk0 hb1 hb0
  have hneg : negEvidence (xorTT n) 0 = true :=
    negEvidence_of_position 0 2 hnb hk2 hc1 hc0
  have hu : buildUnateness (xorTT n) (List.range (xorTT n).n) = none :=
    buildUnateness_none_of_binate hpos hneg (List.range n)
      (List.mem_range.mpr (by omega))
  exact is_threshold_eq_binate hu

/-- Witness for the amended C7 at `n = 2`. -/
theorem xor_rejected_small_witness :
    is_threshold mintermCover (checkedSolver g1) (fun _ => true) (xorTT 2)
      = some (false, none) :=
  xor_rejected_small mintermCover (checkedSolver g1) (fun _ => true) 2
    (by decide) (by decide)

/-- C8: when model construction fails (`make_lp` returns null) the function
returns `false` with no linear form — the same value the genuine
solver-infeasible path returns, so the two outcomes are indistinguishable
to the caller. -/
theorem make_lp_null_sentinel
    (isopFn : TT → List Cube) (solver solver2 : LPModel → Option (List Int))
    (mk mk2 : Nat → Bool) (tt : TT) (u : List Bool) (ttCopy : TT)
    (hu : buildUnateness tt (List.range tt.n) = some u)
    (hf : flipLoop u (List.range tt.n) tt = some ttCopy)
    (hmk : mk (tt.n + 1) = false)
    (hmk2 : mk2 (tt.n + 1) = true)
    (hs2 : solver2 (buildModel tt.n (isopFn ttCopy) (isopFn (compl ttCopy))) = none) :
    is_threshold isopFn solver mk tt = some (false, none)
    ∧ is_threshold isopFn solver2 mk2 tt = some (false, none) :=
  ⟨is_threshold_eq_nolp hu hf hmk, is_threshold_eq_infeasible hu hf hmk2 hs2⟩

/-- Witness for C8 on the one-variable identity function. -/
theorem make_lp_null_sentinel_witness :
    is_threshold mintermCover (checkedSolver g1) (fun _ => false) tt1
        = some (false, none)
    ∧ is_threshold mintermCover (fun _ => none) (fun _ => true) tt1
        = some (false, none) :=
  make_lp_null_sentinel mintermCover (checkedSolver g1) (fun _ => none)
    (fun _ => false) (fun _ => true) tt1 [true] tt1 (by decide) rfl rfl rfl rfl

lemma is_threshold_run_eq_binate {isopFn : TT → List Cube}
    {solver : LPModel → Option (List Int)} {mk : Nat → Bool} {tt : TT}
    (hu : buildUnateness tt (List.range tt.n) = none) :
    is_threshold_run isopFn solver mk tt = (some (false, none), tt) := by
  unfold is_threshold_run
  rw [hu]

lemma is_threshold_run_eq_some {isopFn : TT → List Cube}
    {solver : LPModel → Option (List Int)} {mk : Nat → Bool} {tt : TT}
    {u : List Bool}
    (hu : buildUnateness tt (List.range tt.n) = some u) :
    is_threshold_run isopFn solver mk tt
      = (match flipLoop u (List.range tt.n) tt with
         | none => (none, tt)
         | some t2 => (afterFlip isopFn solver mk tt u t2, tt)) := by
  unfold is_threshold_run
  rw [hu]
  show (match flipLoopSt u (List.range tt.n) ⟨tt, tt⟩ with
    | none => ((none : Option (Bool × Option (List Int))), tt)
    | some st => (afterFlip isopFn solver mk tt u st.working, st.caller)) = _
  rw [flipLoopSt_eq2]
  cases flipLoop u (List.range tt.n) tt with
  | none => rfl
  | some t2 => rfl

/-- C9: the caller's table is unchanged on every return path — the threaded
run returns the caller's table bit-for-bit as it was passed in, and its
result component coincides with `is_threshold`. -/
theorem caller_table_unchanged
    (isopFn : TT → List Cube) (solver : LPModel → Option (List Int))
    (mk : Nat → Bool) (tt : TT) :
    (is_threshold_run isopFn solver mk tt).2 = tt
    ∧ (is_threshold_run isopFn solver mk tt).1 = is_threshold isopFn solver mk tt := by
  cases hu : buildUnateness tt (List.range tt.n) with
  | none =>
    rw [is_threshold_run_eq_binate hu, is_threshold_eq_binate hu]
    exact ⟨rfl, rfl⟩
  | some u =>
    rw [is_threshold_run_eq_some hu]
    cases hf : flipLoop u (List.range tt.n) tt with
    | none =>
      rw [is_threshold_eq_oob hu hf]
      exact ⟨rfl, rfl⟩
    | some t2 =>
      rw [is_threshold_eq_flip hu hf]
      exact ⟨rfl, rfl⟩

/-- C10 (code bug evaluation): on the constant-0 function of one variable
the classification loop completes without detecting binateness but pushes no
entry at all, so the unateness vector has 0 entries instead of `num_vars =
1`, and the normalization loop's access `unateness[0]` is out of bounds
(modelled `none`). -/
theorem unateness_vector_incomplete :
    buildUnateness constZero (List.range 1) = some []
    ∧ flipLoop [] (List.range 1) constZero = none := by
  refine ⟨by decide, ?_⟩
  rfl

end ThresholdId
